import Mathlib

/-!
Verification development for the alphabet-reading recorder/player
(`src/app.js`).  The file embeds the algorithmic core of the source —
the silence trimmer with its WAV encoder, the two word-playback
schedulers (the offset-timer version at lines 280-340 and the
sequential gap version at lines 544-601), the record-stop save path and
the shared preprocessing — as executable Lean definitions, and proves
the specification claims about them.

Modelling conventions: JS strings are `List Char` (code points); audio
samples are exact rationals (the source works on IEEE doubles; every
constant that appears — 0.01, 0.02, 32767 — is compared and floored in
a range where double rounding cannot change the outcome); byte buffers
are `List ℕ` with each entry a byte value.
-/

set_option autoImplicit false

namespace AlphabetReading

/-! ## Character primitives (ASCII fragment of the JS string methods) -/

/-- ASCII fragment of `String.prototype.toLowerCase`: `A`-`Z` (codes
65-90) map to codes +32, everything else is unchanged.  Sufficient for
the app: the only downstream consumers are the `[a-z]` filter and
IndexedDB keys produced from `A`-`Z` grid letters. -/
def jsToLower (c : Char) : Char :=
  if 65 ≤ c.toNat ∧ c.toNat ≤ 90 then Char.ofNat (c.toNat + 32) else c

/-- ASCII fragment of `String.prototype.toUpperCase`: `a`-`z` (codes
97-122) map to codes -32, everything else is unchanged. -/
def jsToUpper (c : Char) : Char :=
  if 97 ≤ c.toNat ∧ c.toNat ≤ 122 then Char.ofNat (c.toNat - 32) else c

/-- The regex test `/[a-z]/.test(c)` on a single character: code point
between 97 and 122. -/
def isLetterAZ (c : Char) : Bool :=
  decide (97 ≤ c.toNat ∧ c.toNat ≤ 122)

/-- `String.prototype.trim`: strip leading and trailing whitespace. -/
def jsTrim (s : List Char) : List Char :=
  ((s.dropWhile Char.isWhitespace).reverse.dropWhile Char.isWhitespace).reverse

/-- Index of the first occurrence of `c` (the JS `indexOf`); length of
the list when absent. -/
def firstPos (c : Char) : List Char → ℕ
  | [] => 0
  | x :: xs => if x = c then 0 else firstPos c xs + 1

/-- First-occurrence deduplication: the iteration order of a JS `Set`
built by insertion, as in `[...new Set(missing)]`. -/
def dedupFirst : List Char → List Char
  | [] => []
  | x :: xs => x :: dedupFirst (xs.filter (fun y => decide (y ≠ x)))
termination_by l => l.length
decreasing_by
  simp only [List.length_cons]
  exact Nat.lt_succ_of_le (List.length_filter_le _ _)

/-! ## Decoded audio and the silence trimmer (`trimSilence`, app.js 116-180) -/

/-- The result of `decodeAudioData`: a sample rate and per-channel
sample arrays (floats, nominally in [-1, 1], but the encoder clamps). -/
structure DecodedAudio where
  sampleRate : ℕ
  channels : List (List ℚ)
deriving Repr

def numberOfChannels (a : DecodedAudio) : ℕ := a.channels.length

/-- `audioBuffer.getChannelData(ch)`. -/
def channelData (a : DecodedAudio) (ch : ℕ) : List ℚ := a.channels.getD ch []

/-- `getChannelData(ch)[i]`, with the out-of-range default 0. -/
def sampleAt (a : DecodedAudio) (ch i : ℕ) : ℚ := (channelData a ch).getD i 0

/-- `const threshold = 0.01` (app.js line 122). -/
def threshold : ℚ := 1 / 100

/-- `const margin = Math.floor(sampleRate * 0.02)` (app.js line 123). -/
def marginOf (sampleRate : ℕ) : ℕ := (⌊(sampleRate : ℚ) * (2 / 100)⌋).toNat

/-- The forward scan (app.js 127-132): index of the first sample whose
absolute value exceeds the threshold, if any. -/
def firstAbove (t : ℚ) : List ℚ → Option ℕ
  | [] => none
  | q :: rest => if t < |q| then some 0 else (firstAbove t rest).map (· + 1)

/-- The backward scan (app.js 136-141): the last index `j ≥ lo` whose
sample exceeds the threshold, if any.  (The JS loop runs from the top
index down to `start`; its first hit is the greatest qualifying index.) -/
def lastAbove (t : ℚ) (lo : ℕ) : List ℚ → Option ℕ
  | [] => none
  | q :: rest =>
    match lastAbove t (lo - 1) rest with
    | some j => some (j + 1)
    | none => if lo = 0 ∧ t < |q| then some 0 else none

/-- `start`: `max(0, i - margin)` for the first index above threshold,
0 when none exists (app.js 126-132).  `ℕ` subtraction is truncated, so
`i - margin` is already the clamped value. -/
def startIdx (a : DecodedAudio) : ℕ :=
  match firstAbove threshold (channelData a 0) with
  | some i => i - marginOf a.sampleRate
  | none => 0

/-- `end`: `min(length, j + margin)` for the last index above threshold
at or after `start`, `length` when none exists (app.js 134-141). -/
def endIdx (a : DecodedAudio) : ℕ :=
  match lastAbove threshold (startIdx a) (channelData a 0) with
  | some j => min (channelData a 0).length (j + marginOf a.sampleRate)
  | none => (channelData a 0).length

/-- `Math.max(-1, Math.min(1, sample))` (app.js line 172). -/
def jsClamp (q : ℚ) : ℚ := max (-1) (min 1 q)

/-- Truncation toward zero: the `ToIntegerOrInfinity` conversion that
`DataView.setInt16` applies to its number argument. -/
def truncQ (q : ℚ) : ℤ := if 0 ≤ q then ⌊q⌋ else ⌈q⌉

/-- The integer written for one sample: `clamped * 0x7FFF` truncated
(app.js line 173). -/
def sampleInt16 (q : ℚ) : ℤ := truncQ (jsClamp q * 32767)

/-- Two little-endian bytes of an unsigned 16-bit write. -/
def u16le (n : ℕ) : List ℕ := [n % 256, n / 256 % 256]

/-- Four little-endian bytes of an unsigned 32-bit write. -/
def u32le (n : ℕ) : List ℕ :=
  [n % 256, n / 256 % 256, n / 65536 % 256, n / 16777216 % 256]

/-- `setInt16 (..., true)`: two's-complement wrap to 16 bits, little
endian. -/
def i16le (z : ℤ) : List ℕ := u16le (z % 65536).toNat

/-- `writeStr`: the ASCII codes of a header tag (app.js 150-152). -/
def asciiBytes (s : String) : List ℕ := s.toList.map Char.toNat

/-- The 44-byte RIFF/WAVE header, fields in offset order exactly as the
sequence of `DataView` writes at app.js 153-165 lays them out
(offsets 0,4,8,12,16,20,22,24,28,32,34,36,40 are consecutive). -/
def wavHeader (sampleRate numChannels dataLen : ℕ) : List ℕ :=
  asciiBytes "RIFF" ++ u32le (36 + dataLen * numChannels * 2) ++
  asciiBytes "WAVE" ++ asciiBytes "fmt " ++ u32le 16 ++ u16le 1 ++
  u16le numChannels ++ u32le sampleRate ++
  u32le (sampleRate * numChannels * 2) ++ u16le (numChannels * 2) ++
  u16le 16 ++ asciiBytes "data" ++ u32le (dataLen * numChannels * 2)

/-- The interleaved 16-bit PCM body (app.js 167-176): for each frame
`i` in the window, each channel's sample in channel order. -/
def wavData (a : DecodedAudio) (start len : ℕ) : List ℕ :=
  (List.range len).flatMap fun i =>
    (List.range (numberOfChannels a)).flatMap fun ch =>
      i16le (sampleInt16 (sampleAt a ch (start + i)))

/-- The encoded WAV payload for a window `[s, e)`. -/
def encodeWav (a : DecodedAudio) (s e : ℕ) : List ℕ :=
  wavHeader a.sampleRate (numberOfChannels a) (e - s) ++ wavData a s (e - s)

/-- `trimSilence` after a successful decode (app.js 119-178): pick the
window, encode it. -/
def trimSilence (a : DecodedAudio) : List ℕ := encodeWav a (startIdx a) (endIdx a)

/-- Little-endian 16-bit read (for round-trip statements). -/
def readU16 (bytes : List ℕ) (off : ℕ) : ℕ :=
  bytes.getD off 0 + 256 * bytes.getD (off + 1) 0

/-- Little-endian 32-bit read (for round-trip statements). -/
def readU32 (bytes : List ℕ) (off : ℕ) : ℕ :=
  bytes.getD off 0 + 256 * bytes.getD (off + 1) 0 +
  65536 * bytes.getD (off + 2) 0 + 16777216 * bytes.getD (off + 3) 0

/-! ## The record-stop save path (`recorder.onstop`, app.js 219-237) -/

/-- An opaque audio payload. -/
abbrev Blob := List ℕ

/-- `decodeAudioData` rejection: the raw bytes could not be parsed. -/
structure DecodeError where
  message : List Char
deriving Repr, DecidableEq

/-- What `saveRecording` is called with once the stop handler settles,
plus the observable side channel (console error vs user alert). -/
structure SavedRecording where
  key : Char
  payload : Blob
  loggedError : Bool
  alertShown : Bool
deriving Repr, DecidableEq

/-- The save decision of `recorder.onstop` (app.js 219-230): persist
the trimmed payload under the lowercased letter; if trimming rejected,
log and persist the untrimmed original under the same key. -/
def onRecorderStop (letter : Char) (raw : Blob)
    (trimResult : Except DecodeError Blob) : SavedRecording :=
  match trimResult with
  | Except.ok trimmed => ⟨jsToLower letter, trimmed, false, false⟩
  | Except.error _ => ⟨jsToLower letter, raw, true, false⟩

/-! ## Word-player state and preprocessing (both versions) -/

/-- The process-wide word-player state: the busy flag `isPlayingWord`,
the play button's `disabled` property, and `wordMessage.textContent`. -/
structure PlayerState where
  isPlayingWord : Bool
  playButtonDisabled : Bool
  wordMessage : List Char
deriving Repr, DecidableEq

/-- `raw.toLowerCase().split('').filter(c => /[a-z]/.test(c))`
(app.js 287 and 551). -/
def filterLetters (s : List Char) : List Char :=
  (s.map jsToLower).filter isLetterAZ

/-- `', '`-joining of `[...new Set(missing)].join(', ')`. -/
def joinCommaSep : List Char → List Char
  | [] => []
  | [c] => [c]
  | c :: rest => c :: ',' :: ' ' :: joinCommaSep rest

/-- The missing-recordings message (app.js 332 and 598). -/
def renderMissing (missing : List Char) : List Char :=
  "Missing recordings for: ".toList ++ joinCommaSep (dedupFirst missing)

/-- The synchronous head of `playWord` (app.js 280-292 / 544-556):
busy-flag check, trim/empty guard, letter filtering, empty-filter
guard; on success flips the busy flag, disables the button, clears the
message and hands the letter list to the scheduler. -/
def playWordStart (st : PlayerState) (input : List Char) :
    PlayerState × Option (List Char) :=
  if st.isPlayingWord then (st, none)
  else if (jsTrim input).isEmpty then (st, none)
  else if (filterLetters (jsTrim input)).isEmpty then (st, none)
  else (⟨true, true, []⟩, some (filterLetters (jsTrim input)))

/-! ## Offset-policy scheduler (app.js 296-334) -/

/-- The observables of the offset-timer scheduler: the `(index,
startAt)` pairs passed to `setTimeout` for letters with a clip, the
`lastEndTime` accumulator, and the pushed `missing` letters. -/
structure OffsetPlan where
  scheduled : List (ℕ × ℕ)
  lastEndTime : ℕ
  missing : List Char
deriving Repr, DecidableEq

/-- The body of `blobs.forEach((blob, i) => ...)` (app.js 303-325),
written as structural recursion carrying the index `i`: a missing blob
only pushes the uppercased letter (the `return` skips both the
`setTimeout` and the `lastEndTime` update); a present blob schedules a
clip at `i * delay` and folds `max(lastEndTime, startAt + 1500)`. -/
def offsetPlanGo {β : Type} (delay : ℕ) (lookup : Char → Option β) :
    ℕ → List Char → OffsetPlan
  | _, [] => ⟨[], 0, []⟩
  | i, l :: rest =>
    let p := offsetPlanGo delay lookup (i + 1) rest
    match lookup l with
    | none => ⟨p.scheduled, p.lastEndTime, jsToUpper l :: p.missing⟩
    | some _ =>
      ⟨(i, i * delay) :: p.scheduled, max (i * delay + 1500) p.lastEndTime,
        p.missing⟩

/-- The whole offset-policy plan for a filtered letter list. -/
def offsetPlan {β : Type} (letters : List Char) (lookup : Char → Option β)
    (delay : ℕ) : OffsetPlan :=
  offsetPlanGo delay lookup 0 letters

/-- The delay of the completion `setTimeout` (app.js 328-334). -/
def offsetCompletionDelay (p : OffsetPlan) : ℕ := p.lastEndTime

/-- The completion callback (app.js 328-334): clear the busy flag,
re-enable the button, and report missing letters if there are any. -/
def offsetComplete (st : PlayerState) (p : OffsetPlan) : PlayerState :=
  ⟨false, false,
    if p.missing.isEmpty then st.wordMessage else renderMissing p.missing⟩

/-! ## Gap-policy scheduler (app.js 558-600) -/

/-- The observables of the sequential chain: total elapsed time at
completion, pushed `missing` letters, and the played clips as
`(letter, startTime, duration)` triples. -/
structure GapRun where
  time : ℕ
  missing : List Char
  plays : List (Char × ℕ × ℕ)
deriving Repr, DecidableEq

/-- The promise chain of app.js 565-592, one step per letter with its
index `i` and the elapsed time `t` when the step runs: a letter with no
blob resolves immediately (only pushing the uppercased letter); a
present letter plays for its duration `d` and then waits `gap` ms
exactly when `i < n - 1`, where `n` is the letter count. -/
def gapRunGo (lookup : Char → Option ℕ) (gap n : ℕ) :
    List Char → ℕ → ℕ → GapRun
  | [], _, t => ⟨t, [], []⟩
  | l :: rest, i, t =>
    match lookup l with
    | none =>
      let r := gapRunGo lookup gap n rest (i + 1) t
      ⟨r.time, jsToUpper l :: r.missing, r.plays⟩
    | some d =>
      let r := gapRunGo lookup gap n rest (i + 1)
        (t + d + (if i < n - 1 then gap else 0))
      ⟨r.time, r.missing, (l, t, d) :: r.plays⟩

/-- The whole gap-policy run: chain over all letters from time 0;
`time` is when `chain.then(...)` (app.js 594-600) fires. -/
def gapRun (letters : List Char) (lookup : Char → Option ℕ) (gap : ℕ) : GapRun :=
  gapRunGo lookup gap letters.length letters 0 0

/-- The completion handler of the chain (app.js 594-600). -/
def gapComplete (st : PlayerState) (missing : List Char) : PlayerState :=
  ⟨false, false,
    if missing.isEmpty then st.wordMessage else renderMissing missing⟩

/-- The time one letter slot adds to the chain (read off app.js 565-592
for the closed-form statement of `gapRun`'s total time): a missing
letter adds nothing; a played letter adds its duration plus the gap
exactly when its index is not the last position. -/
def gapContrib (lookup : Char → Option ℕ) (gap n : ℕ) (e : ℕ × Char) : ℕ :=
  match lookup e.2 with
  | none => 0
  | some d => d + (if e.1 < n - 1 then gap else 0)

/-- Total duration as the specification describes the gap policy: sum
of the played clips' durations plus one pause per played clip except
the last played clip.  Stated from the spec's words (\"a fixed pause of
speedParam milliseconds inserted after every clip except the last\";
a missing letter contributes zero and no gap) for comparison with
`gapRun`. -/
def specGapTotal (letters : List Char) (lookup : Char → Option ℕ) (gap : ℕ) : ℕ :=
  (letters.filterMap lookup).sum + gap * ((letters.filterMap lookup).length - 1)

/-- `Math.round(x)` as the specification uses it for the margin
(round half toward positive infinity).  Modelled from the spec's word
"round", for comparison with the source's `Math.floor`. -/
def specRoundMargin (q : ℚ) : ℤ := ⌊q + 1 / 2⌋

/-! ## Supporting lemmas: characters -/

theorem charToNat_ofNat {n : ℕ} (h : n.isValidChar) : (Char.ofNat n).toNat = n := by
  simp [Char.ofNat, h, Char.ofNatAux, Char.toNat, UInt32.toNat, BitVec.toNat_ofNatLt]

theorem jsToUpper_toNat {c : Char} (h1 : 97 ≤ c.toNat) (h2 : c.toNat ≤ 122) :
    (jsToUpper c).toNat = c.toNat - 32 := by
  unfold jsToUpper
  rw [if_pos ⟨h1, h2⟩]
  exact charToNat_ofNat (Or.inl (by omega))

theorem jsToUpper_injOn {c c' : Char} (h1 : 97 ≤ c.toNat) (h2 : c.toNat ≤ 122)
    (h1' : 97 ≤ c'.toNat) (h2' : c'.toNat ≤ 122)
    (h : jsToUpper c = jsToUpper c') : c = c' := by
  have e : c.toNat = c'.toNat := by
    have hud := congrArg Char.toNat h
    rw [jsToUpper_toNat h1 h2, jsToUpper_toNat h1' h2'] at hud
    omega
  calc c = Char.ofNat c.toNat := (Char.ofNat_toNat c).symm
    _ = Char.ofNat c'.toNat := by rw [e]
    _ = c' := Char.ofNat_toNat c'

/-! ## Supporting lemmas: first positions and first-occurrence dedup -/

theorem firstPos_cons_self (c : Char) (l : List Char) : firstPos c (c :: l) = 0 := by
  simp [firstPos]

theorem firstPos_cons_ne {x c : Char} (h : x ≠ c) (l : List Char) :
    firstPos c (x :: l) = firstPos c l + 1 := by
  simp [firstPos, h]

theorem firstPos_filter_lt {p : Char → Bool} {a b : Char} {l : List Char}
    (hpa : p a = true) (hpb : p b = true)
    (h : firstPos a (l.filter p) < firstPos b (l.filter p)) :
    firstPos a l < firstPos b l := by
  induction l with
  | nil => simp [firstPos] at h
  | cons c t ih =>
    by_cases hc : p c = true
    · rw [List.filter_cons_of_pos hc] at h
      by_cases hca : c = a
      · subst hca
        rw [firstPos_cons_self] at h ⊢
        by_cases hcb : c = b
        · subst hcb; rw [firstPos_cons_self] at h; omega
        · rw [firstPos_cons_ne hcb]; omega
      · by_cases hcb : c = b
        · subst hcb
          rw [firstPos_cons_self] at h
          omega
        · rw [firstPos_cons_ne hca, firstPos_cons_ne hcb] at h
          rw [firstPos_cons_ne hca, firstPos_cons_ne hcb]
          exact Nat.succ_lt_succ (ih (by omega))
    · rw [List.filter_cons_of_neg (by simpa using hc)] at h
      have hca : c ≠ a := fun e => hc (e ▸ hpa)
      have hcb : c ≠ b := fun e => hc (e ▸ hpb)
      rw [firstPos_cons_ne hca, firstPos_cons_ne hcb]
      exact Nat.succ_lt_succ (ih h)

theorem dedupFirst_mem_aux :
    ∀ (n : ℕ) (l : List Char), l.length ≤ n → ∀ a, (a ∈ dedupFirst l ↔ a ∈ l)
  | _, [], _, a => by simp [dedupFirst]
  | 0, x :: xs, h, a => by simp at h
  | Nat.succ n, x :: xs, h, a => by
    have hlen : (xs.filter fun y => decide (y ≠ x)).length ≤ n :=
      le_trans (List.length_filter_le _ _) (by simpa using h)
    have ih := dedupFirst_mem_aux n (xs.filter fun y => decide (y ≠ x)) hlen a
    rw [dedupFirst]
    by_cases hax : a = x
    · simp [hax]
    · constructor
      · intro ha
        rcases List.mem_cons.1 ha with h1 | h1
        · exact List.mem_cons.2 (Or.inl h1)
        · exact List.mem_cons.2 (Or.inr (List.mem_filter.1 (ih.1 h1)).1)
      · intro ha
        rcases List.mem_cons.1 ha with h1 | h1
        · exact List.mem_cons.2 (Or.inl h1)
        · exact List.mem_cons.2
            (Or.inr (ih.2 (List.mem_filter.2 ⟨h1, by simpa using hax⟩)))

theorem mem_dedupFirst (l : List Char) (a : Char) : a ∈ dedupFirst l ↔ a ∈ l :=
  dedupFirst_mem_aux l.length l le_rfl a

theorem dedupFirst_nodup_aux :
    ∀ (n : ℕ) (l : List Char), l.length ≤ n → (dedupFirst l).Nodup
  | _, [], _ => by simp [dedupFirst]
  | 0, x :: xs, h => by simp at h
  | Nat.succ n, x :: xs, h => by
    have hlen : (xs.filter fun y => decide (y ≠ x)).length ≤ n :=
      le_trans (List.length_filter_le _ _) (by simpa using h)
    rw [dedupFirst]
    refine List.Nodup.cons ?_ (dedupFirst_nodup_aux n _ hlen)
    intro hx
    have := (dedupFirst_mem_aux n _ hlen x).1 hx
    simp [List.mem_filter] at this

theorem dedupFirst_nodup (l : List Char) : (dedupFirst l).Nodup :=
  dedupFirst_nodup_aux l.length l le_rfl

theorem dedupFirst_pairwise_aux :
    ∀ (n : ℕ) (l : List Char), l.length ≤ n →
      List.Pairwise (fun a b => firstPos a l < firstPos b l) (dedupFirst l)
  | _, [], _ => by simp [dedupFirst]
  | 0, x :: xs, h => by simp at h
  | Nat.succ n, x :: xs, h => by
    have hlen : (xs.filter fun y => decide (y ≠ x)).length ≤ n :=
      le_trans (List.length_filter_le _ _) (by simpa using h)
    rw [dedupFirst]
    refine List.Pairwise.cons ?_ ?_
    · intro b hb
      have hbf := (dedupFirst_mem_aux n _ hlen b).1 hb
      have hbx : b ≠ x := by
        have := List.mem_filter.1 hbf
        simpa using this.2
      rw [firstPos_cons_self, firstPos_cons_ne (fun e => hbx e.symm)]
      omega
    · have ihp := dedupFirst_pairwise_aux n _ hlen
      refine List.Pairwise.imp_of_mem ?_ ihp
      intro a b ha hb hab
      have haf := (dedupFirst_mem_aux n _ hlen a).1 ha
      have hbf := (dedupFirst_mem_aux n _ hlen b).1 hb
      have hax : a ≠ x := by have := List.mem_filter.1 haf; simpa using this.2
      have hbx : b ≠ x := by have := List.mem_filter.1 hbf; simpa using this.2
      have hxs : firstPos a xs < firstPos b xs :=
        firstPos_filter_lt (by simpa using hax) (by simpa using hbx) hab
      rw [firstPos_cons_ne (fun e => hax e.symm), firstPos_cons_ne (fun e => hbx e.symm)]
      omega

theorem dedupFirst_pairwise (l : List Char) :
    List.Pairwise (fun a b => firstPos a l < firstPos b l) (dedupFirst l) :=
  dedupFirst_pairwise_aux l.length l le_rfl

/-! ## Supporting lemmas: the trim scans -/

theorem firstAbove_eq_some {t : ℚ} :
    ∀ {l : List ℚ} {i : ℕ}, firstAbove t l = some i →
      i < l.length ∧ t < |l.getD i 0| ∧ ∀ k, k < i → ¬ t < |l.getD k 0|
  | [], i, h => by simp [firstAbove] at h
  | q :: rest, i, h => by
    rw [firstAbove] at h
    by_cases hq : t < |q|
    · rw [if_pos hq] at h
      obtain rfl : i = 0 := by simpa using h.symm
      exact ⟨Nat.succ_pos _, by simpa using hq, by omega⟩
    · rw [if_neg hq] at h
      obtain ⟨j, hj, rfl⟩ := Option.map_eq_some'.1 h
      obtain ⟨h1, h2, h3⟩ := firstAbove_eq_some hj
      refine ⟨by simpa using h1, by simpa using h2, ?_⟩
      intro k hk
      match k with
      | 0 => simpa using hq
      | Nat.succ k' => exact fun hc => h3 k' (by omega) (by simpa using hc)

theorem firstAbove_eq_none {t : ℚ} :
    ∀ {l : List ℚ}, firstAbove t l = none → ∀ k, k < l.length → ¬ t < |l.getD k 0|
  | [], _, k, hk => by simp at hk
  | q :: rest, h, k, hk => by
    rw [firstAbove] at h
    by_cases hq : t < |q|
    · rw [if_pos hq] at h; exact absurd h (by simp)
    · rw [if_neg hq] at h
      have hrest : firstAbove t rest = none := by
        cases hr : firstAbove t rest with
        | none => rfl
        | some j => rw [hr] at h; exact absurd h (by simp)
      match k with
      | 0 => simpa using hq
      | Nat.succ k' =>
        exact fun hc => firstAbove_eq_none hrest k' (by simpa using hk) (by simpa using hc)

theorem lastAbove_eq_none {t : ℚ} :
    ∀ {l : List ℚ} {lo : ℕ}, lastAbove t lo l = none →
      ∀ k, lo ≤ k → k < l.length → ¬ t < |l.getD k 0|
  | [], lo, _, k, _, hk => by simp at hk
  | q :: rest, lo, h, k, hlo, hk => by
    rw [lastAbove] at h
    cases hr : lastAbove t (lo - 1) rest with
    | some j => rw [hr] at h; exact absurd h (by simp)
    | none =>
      rw [hr] at h
      have hcond : ¬ (lo = 0 ∧ t < |q|) := by
        intro hc
        rw [if_pos hc] at h
        exact absurd h (by simp)
      rw [if_neg hcond] at h
      match k with
      | 0 =>
        have hlo0 : lo = 0 := Nat.le_zero.1 hlo
        intro hc
        exact hcond ⟨hlo0, by simpa using hc⟩
      | Nat.succ k' =>
        exact fun hc =>
          lastAbove_eq_none hr k' (by omega) (by simpa using hk) (by simpa using hc)

theorem lastAbove_eq_some {t : ℚ} :
    ∀ {l : List ℚ} {lo j : ℕ}, lastAbove t lo l = some j →
      lo ≤ j ∧ j < l.length ∧ t < |l.getD j 0| ∧
        ∀ k, j < k → k < l.length → ¬ t < |l.getD k 0|
  | [], lo, j, h => by simp [lastAbove] at h
  | q :: rest, lo, j, h => by
    rw [lastAbove] at h
    cases hr : lastAbove t (lo - 1) rest with
    | some j' =>
      rw [hr] at h
      obtain rfl : j = j' + 1 := by simpa using h.symm
      obtain ⟨h1, h2, h3, h4⟩ := lastAbove_eq_some hr
      refine ⟨by omega, by simpa using h2, by simpa using h3, ?_⟩
      intro k hk hklen
      match k with
      | 0 => omega
      | Nat.succ k' =>
        exact fun hc => h4 k' (by omega) (by simpa using hklen) (by simpa using hc)
    | none =>
      rw [hr] at h
      by_cases hcond : lo = 0 ∧ t < |q|
      · rw [if_pos hcond] at h
        obtain rfl : j = 0 := by simpa using h.symm
        refine ⟨by omega, Nat.succ_pos _, by simpa using hcond.2, ?_⟩
        intro k hk hklen
        match k with
        | 0 => omega
        | Nat.succ k' =>
          exact fun hc =>
            lastAbove_eq_none hr k' (by omega) (by simpa using hklen) (by simpa using hc)
      · rw [if_neg hcond] at h
        exact absurd h (by simp)

/-! ## Supporting lemmas: WAV encoding -/

theorem jsClamp_bounds (q : ℚ) : -1 ≤ jsClamp q ∧ jsClamp q ≤ 1 :=
  ⟨le_max_left _ _, max_le (by norm_num) (min_le_left _ _)⟩

theorem sampleInt16_bounds (q : ℚ) :
    -32767 ≤ sampleInt16 q ∧ sampleInt16 q ≤ 32767 := by
  obtain ⟨hc1, hc2⟩ := jsClamp_bounds q
  have hs1 : (-32767 : ℚ) ≤ jsClamp q * 32767 := by nlinarith
  have hs2 : jsClamp q * 32767 ≤ 32767 := by nlinarith
  unfold sampleInt16 truncQ
  by_cases h : 0 ≤ jsClamp q * 32767
  · rw [if_pos h]
    constructor
    · exact le_trans (by norm_num) (Int.floor_nonneg.2 h)
    · have hf := Int.floor_le_floor (α := ℚ) hs2
      simpa using hf
  · rw [if_neg h]
    constructor
    · have hf := Int.ceil_le_ceil (α := ℚ) hs1
      simpa using hf
    · have hle : jsClamp q * 32767 ≤ 0 := le_of_lt (lt_of_not_ge h)
      have hf := Int.ceil_le_ceil (α := ℚ) hle
      simp at hf
      omega

theorem readU32_u32le (n : ℕ) : readU32 (u32le n) 0 = n % 4294967296 := by
  have hrw : readU32 (u32le n) 0
      = n % 256 + 256 * (n / 256 % 256) + 65536 * (n / 65536 % 256) +
        16777216 * (n / 16777216 % 256) := rfl
  rw [hrw]
  omega

theorem readU16_u16le (n : ℕ) : readU16 (u16le n) 0 = n % 65536 := by
  have hrw : readU16 (u16le n) 0 = n % 256 + 256 * (n / 256 % 256) := rfl
  rw [hrw]
  omega

theorem length_flatMap_const {α : Type} (c : ℕ) :
    ∀ (l : List α) (f : α → List ℕ), (∀ x ∈ l, (f x).length = c) →
      (l.flatMap f).length = l.length * c
  | [], _, _ => by simp
  | x :: xs, f, h => by
    rw [List.flatMap_cons, List.length_append,
      length_flatMap_const c xs f (fun y hy => h y (List.mem_cons_of_mem _ hy)),
      h x (List.mem_cons_self x xs), List.length_cons, Nat.succ_mul]
    omega

theorem wavData_length (a : DecodedAudio) (start len : ℕ) :
    (wavData a start len).length = len * numberOfChannels a * 2 := by
  unfold wavData
  have hinner : ∀ i ∈ List.range len,
      ((List.range (numberOfChannels a)).flatMap fun ch =>
        i16le (sampleInt16 (sampleAt a ch (start + i)))).length
      = numberOfChannels a * 2 := by
    intro i _
    have hin := length_flatMap_const 2 (List.range (numberOfChannels a))
      (fun ch => i16le (sampleInt16 (sampleAt a ch (start + i)))) (fun ch _ => rfl)
    simpa using hin
  have hout := length_flatMap_const (numberOfChannels a * 2) (List.range len) _ hinner
  simpa [mul_assoc] using hout

/-! ## Supporting lemmas: the offset scheduler fold -/

theorem offsetPlanGo_missing {β : Type} (delay : ℕ) (lookup : Char → Option β) :
    ∀ (ls : List Char) (i : ℕ),
      (offsetPlanGo delay lookup i ls).missing
        = (ls.filter fun l => (lookup l).isNone).map jsToUpper := by
  intro ls
  induction ls with
  | nil => intro i; simp [offsetPlanGo]
  | cons l rest ih =>
    intro i
    cases h : lookup l <;> simp [offsetPlanGo, h, ih]

theorem offsetPlanGo_scheduled {β : Type} (delay : ℕ) (lookup : Char → Option β) :
    ∀ (ls : List Char) (i : ℕ),
      (offsetPlanGo delay lookup i ls).scheduled
        = ((List.enumFrom i ls).filter fun e => (lookup e.2).isSome).map
            fun e => (e.1, e.1 * delay) := by
  intro ls
  induction ls with
  | nil => intro i; simp [offsetPlanGo]
  | cons l rest ih =>
    intro i
    cases h : lookup l <;> simp [offsetPlanGo, h, ih, List.enumFrom_cons]

theorem offsetPlanGo_lastEnd {β : Type} (delay : ℕ) (lookup : Char → Option β) :
    ∀ (ls : List Char) (i : ℕ),
      (offsetPlanGo delay lookup i ls).lastEndTime
        = ((List.enumFrom i ls).filter fun e => (lookup e.2).isSome).foldr
            (fun e m => max (e.1 * delay + 1500) m) 0 := by
  intro ls
  induction ls with
  | nil => intro i; simp [offsetPlanGo]
  | cons l rest ih =>
    intro i
    cases h : lookup l <;> simp [offsetPlanGo, h, ih, List.enumFrom_cons]

theorem offsetPlanGo_lastEnd_allPresent {β : Type} (delay : ℕ)
    (lookup : Char → Option β) :
    ∀ (ls : List Char) (i : ℕ), ls ≠ [] → (∀ l ∈ ls, (lookup l).isSome) →
      (offsetPlanGo delay lookup i ls).lastEndTime = (i + ls.length - 1) * delay + 1500 := by
  intro ls
  induction ls with
  | nil => intro i hne _; exact absurd rfl hne
  | cons l rest ih =>
    intro i _ hall
    have hl : (lookup l).isSome := hall l (List.mem_cons_self l rest)
    obtain ⟨b, hb⟩ := Option.isSome_iff_exists.1 hl
    cases rest with
    | nil => simp [offsetPlanGo, hb]
    | cons l2 rest2 =>
      have hrest := ih (i + 1) (by simp) (fun x hx => hall x (List.mem_cons_of_mem _ hx))
      have hgoal : (offsetPlanGo delay lookup i (l :: l2 :: rest2)).lastEndTime
          = max (i * delay + 1500)
              (offsetPlanGo delay lookup (i + 1) (l2 :: rest2)).lastEndTime := by
        rw [offsetPlanGo]
        simp only [hb]
      rw [hgoal, hrest]
      have h1 : i + 1 + (l2 :: rest2).length - 1 = i + (l2 :: rest2).length := by omega
      rw [h1]
      have hle : i * delay + 1500 ≤ (i + (l2 :: rest2).length) * delay + 1500 := by
        have hm := Nat.mul_le_mul_right delay (show i ≤ i + (l2 :: rest2).length by omega)
        omega
      rw [max_eq_right hle]
      have h2 : i + (l :: l2 :: rest2).length - 1 = i + (l2 :: rest2).length := by
        simp only [List.length_cons]
        omega
      rw [h2]

/-! ## Supporting lemmas: the gap scheduler chain -/

theorem gapContrib_none (lookup : Char → Option ℕ) (gap n i : ℕ) (l : Char)
    (h : lookup l = none) : gapContrib lookup gap n (i, l) = 0 := by
  simp [gapContrib, h]

theorem gapContrib_some (lookup : Char → Option ℕ) (gap n i d : ℕ) (l : Char)
    (h : lookup l = some d) :
    gapContrib lookup gap n (i, l) = d + (if i < n - 1 then gap else 0) := by
  simp [gapContrib, h]

theorem gapRunGo_time (lookup : Char → Option ℕ) (gap n : ℕ) :
    ∀ (ls : List Char) (i t : ℕ),
      (gapRunGo lookup gap n ls i t).time
        = t + ((List.enumFrom i ls).map (gapContrib lookup gap n)).sum := by
  intro ls
  induction ls with
  | nil => intro i t; simp [gapRunGo]
  | cons l rest ih =>
    intro i t
    cases h : lookup l with
    | none =>
      have hstep : (gapRunGo lookup gap n (l :: rest) i t).time
          = (gapRunGo lookup gap n rest (i + 1) t).time := by
        rw [gapRunGo]
        simp only [h]
      rw [hstep, ih, List.enumFrom_cons, List.map_cons, List.sum_cons,
        gapContrib_none lookup gap n i l h]
      omega
    | some d =>
      have hstep : (gapRunGo lookup gap n (l :: rest) i t).time
          = (gapRunGo lookup gap n rest (i + 1)
              (t + d + (if i < n - 1 then gap else 0))).time := by
        rw [gapRunGo]
        simp only [h]
      rw [hstep, ih, List.enumFrom_cons, List.map_cons, List.sum_cons,
        gapContrib_some lookup gap n i d l h]
      omega

theorem gapRunGo_missing (lookup : Char → Option ℕ) (gap n : ℕ) :
    ∀ (ls : List Char) (i t : ℕ),
      (gapRunGo lookup gap n ls i t).missing
        = (ls.filter fun l => (lookup l).isNone).map jsToUpper := by
  intro ls
  induction ls with
  | nil => intro i t; simp [gapRunGo]
  | cons l rest ih =>
    intro i t
    cases h : lookup l <;> simp [gapRunGo, h, ih]

theorem gapRunGo_plays_start_le (lookup : Char → Option ℕ) (gap n : ℕ) :
    ∀ (ls : List Char) (i t : ℕ),
      ∀ pl ∈ (gapRunGo lookup gap n ls i t).plays, t ≤ pl.2.1 := by
  intro ls
  induction ls with
  | nil => intro i t pl hpl; simp [gapRunGo] at hpl
  | cons l rest ih =>
    intro i t pl hpl
    cases h : lookup l with
    | none =>
      rw [gapRunGo] at hpl
      simp only [h] at hpl
      exact ih (i + 1) t pl hpl
    | some d =>
      rw [gapRunGo] at hpl
      simp only [h] at hpl
      rcases List.mem_cons.1 hpl with h1 | h1
      · subst h1; exact le_rfl
      · have := ih (i + 1) (t + d + (if i < n - 1 then gap else 0)) pl h1
        omega

theorem gapRunGo_plays_chain (lookup : Char → Option ℕ) (gap n : ℕ) :
    ∀ (ls : List Char) (i t : ℕ),
      List.Chain' (fun p q => p.2.1 + p.2.2 ≤ q.2.1)
        (gapRunGo lookup gap n ls i t).plays := by
  intro ls
  induction ls with
  | nil => intro i t; simp [gapRunGo]
  | cons l rest ih =>
    intro i t
    cases h : lookup l with
    | none =>
      rw [gapRunGo]
      simp only [h]
      exact ih (i + 1) t
    | some d =>
      rw [gapRunGo]
      simp only [h]
      refine List.chain'_cons'.2 ⟨?_, ih (i + 1) (t + d + (if i < n - 1 then gap else 0))⟩
      intro y hy
      have hmem := List.mem_of_mem_head? hy
      have hst := gapRunGo_plays_start_le lookup gap n rest (i + 1)
        (t + d + (if i < n - 1 then gap else 0)) y hmem
      show t + d ≤ y.2.1
      omega

/-! ## Wrappers of the fold characterizations at the top-level entry points -/

theorem offsetPlan_missing {β : Type} (letters : List Char) (lookup : Char → Option β)
    (delay : ℕ) :
    (offsetPlan letters lookup delay).missing
      = (letters.filter fun l => (lookup l).isNone).map jsToUpper :=
  offsetPlanGo_missing delay lookup letters 0

theorem offsetPlan_scheduled {β : Type} (letters : List Char) (lookup : Char → Option β)
    (delay : ℕ) :
    (offsetPlan letters lookup delay).scheduled
      = ((List.enumFrom 0 letters).filter fun e => (lookup e.2).isSome).map
          fun e => (e.1, e.1 * delay) :=
  offsetPlanGo_scheduled delay lookup letters 0

theorem offsetPlan_lastEnd {β : Type} (letters : List Char) (lookup : Char → Option β)
    (delay : ℕ) :
    (offsetPlan letters lookup delay).lastEndTime
      = ((List.enumFrom 0 letters).filter fun e => (lookup e.2).isSome).foldr
          (fun e m => max (e.1 * delay + 1500) m) 0 :=
  offsetPlanGo_lastEnd delay lookup letters 0

theorem gapRun_time (letters : List Char) (lookup : Char → Option ℕ) (gap : ℕ) :
    (gapRun letters lookup gap).time
      = ((List.enumFrom 0 letters).map (gapContrib lookup gap letters.length)).sum := by
  have h := gapRunGo_time lookup gap letters.length letters 0 0
  simpa using h

theorem gapRun_missing (letters : List Char) (lookup : Char → Option ℕ) (gap : ℕ) :
    (gapRun letters lookup gap).missing
      = (letters.filter fun l => (lookup l).isNone).map jsToUpper :=
  gapRunGo_missing lookup gap letters.length letters 0 0

/-! ## The missing-letters report -/

/-- What the claims require of the user-visible missing-letters report
relative to the filtered word `letters` and the absence predicate:
exactly the uppercased letters with no stored clip, without duplicates,
ordered by first occurrence in the (uppercased) word. -/
def ReportCorrect (letters : List Char) (absent : Char → Bool)
    (report : List Char) : Prop :=
  (∀ c, c ∈ report ↔ ∃ l, l ∈ letters ∧ absent l = true ∧ jsToUpper l = c)
  ∧ report.Nodup
  ∧ List.Pairwise
      (fun x y => firstPos x (letters.map jsToUpper) < firstPos y (letters.map jsToUpper))
      report

theorem reportCorrect_of_lower (letters : List Char) (absent : Char → Bool)
    (hlower : ∀ l ∈ letters, 97 ≤ l.toNat ∧ l.toNat ≤ 122) :
    ReportCorrect letters absent (dedupFirst ((letters.filter absent).map jsToUpper)) := by
  refine ⟨?_, dedupFirst_nodup _, ?_⟩
  · intro c
    rw [mem_dedupFirst]
    constructor
    · intro hc
      obtain ⟨l, hl, rfl⟩ := List.mem_map.1 hc
      obtain ⟨hl1, hl2⟩ := List.mem_filter.1 hl
      exact ⟨l, hl1, hl2, rfl⟩
    · rintro ⟨l, hl, habs, rfl⟩
      exact List.mem_map_of_mem _ (List.mem_filter.2 ⟨hl, habs⟩)
  · have hval : (letters.filter absent).map jsToUpper
        = (letters.map jsToUpper).filter
            (fun c => decide (c ∈ (letters.filter absent).map jsToUpper)) := by
      rw [List.filter_map]
      congr 1
      refine (List.filter_congr ?_).symm
      intro l hl
      cases habs : absent l with
      | true =>
        have hmem : jsToUpper l ∈ (letters.filter absent).map jsToUpper :=
          List.mem_map_of_mem _ (List.mem_filter.2 ⟨hl, habs⟩)
        simp [Function.comp, hmem]
      | false =>
        have hnot : ¬ jsToUpper l ∈ (letters.filter absent).map jsToUpper := by
          intro hmem
          obtain ⟨l', hl', heq⟩ := List.mem_map.1 hmem
          obtain ⟨hl'1, habs'⟩ := List.mem_filter.1 hl'
          obtain ⟨ha1, ha2⟩ := hlower l hl
          obtain ⟨hb1, hb2⟩ := hlower l' hl'1
          have heql : l' = l := jsToUpper_injOn hb1 hb2 ha1 ha2 heq
          rw [heql, habs] at habs'
          exact absurd habs' (by simp)
        simp [Function.comp, hnot]
    have hp := dedupFirst_pairwise ((letters.filter absent).map jsToUpper)
    refine List.Pairwise.imp_of_mem ?_ hp
    intro x y hx hy hxy
    have hxmo : x ∈ (letters.filter absent).map jsToUpper := (mem_dedupFirst _ x).1 hx
    have hymo : y ∈ (letters.filter absent).map jsToUpper := (mem_dedupFirst _ y).1 hy
    rw [hval] at hxy
    exact firstPos_filter_lt (by simpa using hxmo) (by simpa using hymo) hxy

/-! ## Claim theorems -/

/-- C9: when trimming rejects with a decode error, the stop handler
persists the untrimmed original under the letter's lowercased key (the
error is logged, no user alert); when it succeeds, the trimmed payload
is persisted instead. -/
theorem c9_trim_failure_fallback (letter : Char) (raw : Blob) (e : DecodeError) :
    onRecorderStop letter raw (Except.error e) = ⟨jsToLower letter, raw, true, false⟩
    ∧ ∀ trimmed : Blob,
        onRecorderStop letter raw (Except.ok trimmed)
          = ⟨jsToLower letter, trimmed, false, false⟩ :=
  ⟨rfl, fun _ => rfl⟩

/-- C8: while the process-wide busy flag is set, `playWord` is a
no-op — state unchanged, no plan built — and only the completion
callbacks clear the flag. -/
theorem c8_busy_flag_noop (st : PlayerState) (input : List Char)
    (h : st.isPlayingWord = true) :
    playWordStart st input = (st, none)
    ∧ (∀ p : OffsetPlan, (offsetComplete st p).isPlayingWord = false)
    ∧ (∀ m : List Char, (gapComplete st m).isPlayingWord = false) :=
  ⟨by simp [playWordStart, h], fun _ => rfl, fun _ => rfl⟩

/-- C8 witness at a concrete busy state and input. -/
theorem c8_busy_flag_noop_witness :
    playWordStart ⟨true, true, []⟩ ['c', 'a', 't'] = (⟨true, true, []⟩, none)
    ∧ (∀ p : OffsetPlan, (offsetComplete ⟨true, true, []⟩ p).isPlayingWord = false)
    ∧ (∀ m : List Char, (gapComplete ⟨true, true, []⟩ m).isPlayingWord = false) :=
  c8_busy_flag_noop ⟨true, true, []⟩ ['c', 'a', 't'] rfl

theorem playWordStart_noop (st : PlayerState) (input : List Char)
    (h : filterLetters (jsTrim input) = []) :
    playWordStart st input = (st, none) := by
  by_cases hb : st.isPlayingWord <;>
    by_cases he : (jsTrim input).isEmpty <;>
      simp [playWordStart, hb, he, h]

/-- C6: preprocessing lowercases the input and keeps exactly the
characters `a`-`z` in order (`"Ab3 c!"` gives `[a,b,c]`); an input
whose filtered letter list is empty (such as `"123"`) leaves the state
untouched and builds no plan. -/
theorem c6_preprocessing :
    filterLetters "Ab3 c!".toList = ['a', 'b', 'c']
    ∧ filterLetters "123".toList = []
    ∧ (∀ s : List Char, (filterLetters s).Sublist (s.map jsToLower))
    ∧ (∀ s : List Char, ∀ c ∈ filterLetters s, 97 ≤ c.toNat ∧ c.toNat ≤ 122)
    ∧ (∀ (st : PlayerState) (input : List Char),
        filterLetters (jsTrim input) = [] → playWordStart st input = (st, none))
    ∧ (∀ st : PlayerState, playWordStart st "123".toList = (st, none)) := by
  refine ⟨by decide, by decide, ?_, ?_, ?_, ?_⟩
  · intro s
    exact List.filter_sublist _
  · intro s c hc
    have hmem := (List.mem_filter.1 hc).2
    simpa [isLetterAZ] using hmem
  · intro st input h
    exact playWordStart_noop st input h
  · intro st
    exact playWordStart_noop st "123".toList (by decide)

/-- C6 witness: the no-op branch applied at a concrete idle state and
the all-digits input. -/
theorem c6_preprocessing_witness :
    playWordStart ⟨false, false, []⟩ ['1', '2', '3']
      = (⟨false, false, []⟩, none) :=
  c6_preprocessing.2.2.2.2.1 ⟨false, false, []⟩ ['1', '2', '3'] (by decide)

/-- C3 (corrected): the trim threshold is 0.01 as claimed, but the
margin is `Math.floor(sampleRate * 0.02)`, not `Math.round`: at
`sampleRate = 75` the source computes `floor(1.5) = 1` while the
claimed rounding gives 2. -/
theorem c3_margin_round_counterexample :
    marginOf 75 = 1
    ∧ specRoundMargin ((75 : ℚ) * (2 / 100)) = 2
    ∧ (marginOf 75 : ℤ) ≠ specRoundMargin ((75 : ℚ) * (2 / 100)) := by
  refine ⟨?_, ?_, ?_⟩ <;> norm_num [marginOf, specRoundMargin, Int.floor_eq_iff]

/-- C3 (amended): the threshold is exactly 0.01 and the margin is
exactly `floor(sampleRate * 0.02)` samples, which as a natural number
is `sampleRate * 2 / 100`. -/
theorem c3_constants_amended (sr : ℕ) (hsr : 0 < sr) :
    threshold = 1 / 100
    ∧ (marginOf sr : ℤ) = ⌊(sr : ℚ) * (2 / 100)⌋
    ∧ marginOf sr = sr * 2 / 100 := by
  have hnn : (0 : ℚ) ≤ (sr : ℚ) * (2 / 100) := by positivity
  have hfloor : ⌊(sr : ℚ) * (2 / 100)⌋ = ((sr * 2 / 100 : ℕ) : ℤ) := by
    have hx : (sr : ℚ) * (2 / 100) = ((sr * 2 : ℕ) : ℚ) / 100 := by
      push_cast
      ring
    rw [hx, Int.floor_eq_iff]
    constructor
    · rw [le_div_iff₀ (by norm_num)]
      exact_mod_cast Nat.div_mul_le_self (sr * 2) 100
    · rw [div_lt_iff₀ (by norm_num)]
      have hlt : sr * 2 < (sr * 2 / 100 + 1) * 100 := by omega
      exact_mod_cast hlt
  refine ⟨rfl, Int.toNat_of_nonneg (Int.floor_nonneg.2 hnn), ?_⟩
  unfold marginOf
  rw [hfloor]
  omega

/-- C3 witness at a concrete sample rate. -/
theorem c3_constants_amended_witness :
    threshold = 1 / 100
    ∧ (marginOf 48000 : ℤ) = ⌊(48000 : ℚ) * (2 / 100)⌋
    ∧ marginOf 48000 = 48000 * 2 / 100 :=
  c3_constants_amended 48000 (by norm_num)

/-- C2: the trim window.  The start is `max(0, i - margin)` for the
first channel-0 index `i` above the threshold (0 when none exists); the
end is `min(length, j + margin)` for the last index `j ≥ start` above
the threshold (`length` when none exists); for an entirely-silent
input the window covers the whole buffer. -/
theorem c2_trim_window (a : DecodedAudio) :
    ((∃ i, i < (channelData a 0).length
        ∧ threshold < |(channelData a 0).getD i 0|
        ∧ (∀ k, k < i → ¬ threshold < |(channelData a 0).getD k 0|)
        ∧ (startIdx a : ℤ) = max 0 ((i : ℤ) - (marginOf a.sampleRate : ℤ)))
      ∨ ((∀ k, k < (channelData a 0).length →
            ¬ threshold < |(channelData a 0).getD k 0|)
          ∧ startIdx a = 0))
    ∧ ((∃ j, startIdx a ≤ j ∧ j < (channelData a 0).length
        ∧ threshold < |(channelData a 0).getD j 0|
        ∧ (∀ k, j < k → k < (channelData a 0).length →
            ¬ threshold < |(channelData a 0).getD k 0|)
        ∧ endIdx a = min (channelData a 0).length (j + marginOf a.sampleRate))
      ∨ ((∀ k, startIdx a ≤ k → k < (channelData a 0).length →
            ¬ threshold < |(channelData a 0).getD k 0|)
          ∧ endIdx a = (channelData a 0).length))
    ∧ ((∀ k, k < (channelData a 0).length →
          ¬ threshold < |(channelData a 0).getD k 0|) →
        startIdx a = 0 ∧ endIdx a = (channelData a 0).length) := by
  refine ⟨?_, ?_, ?_⟩
  · cases hf : firstAbove threshold (channelData a 0) with
    | none =>
      right
      exact ⟨firstAbove_eq_none hf, by simp [startIdx, hf]⟩
    | some i =>
      left
      obtain ⟨h1, h2, h3⟩ := firstAbove_eq_some hf
      refine ⟨i, h1, h2, h3, ?_⟩
      have hs : startIdx a = i - marginOf a.sampleRate := by simp [startIdx, hf]
      rw [hs]
      omega
  · cases he : lastAbove threshold (startIdx a) (channelData a 0) with
    | none =>
      right
      exact ⟨fun k hk1 hk2 => lastAbove_eq_none he k hk1 hk2, by simp [endIdx, he]⟩
    | some j =>
      left
      obtain ⟨h1, h2, h3, h4⟩ := lastAbove_eq_some he
      exact ⟨j, h1, h2, h3, h4, by simp [endIdx, he]⟩
  · intro hsilent
    have hf : firstAbove threshold (channelData a 0) = none := by
      cases hf : firstAbove threshold (channelData a 0) with
      | none => rfl
      | some i =>
        obtain ⟨h1, h2, _⟩ := firstAbove_eq_some hf
        exact absurd h2 (hsilent i h1)
    have he : lastAbove threshold (startIdx a) (channelData a 0) = none := by
      cases he : lastAbove threshold (startIdx a) (channelData a 0) with
      | none => rfl
      | some j =>
        obtain ⟨_, h2, h3, _⟩ := lastAbove_eq_some he
        exact absurd h3 (hsilent j h2)
    exact ⟨by simp [startIdx, hf], by simp [endIdx, he]⟩

theorem wavHeader_length (sr nch L : ℕ) : (wavHeader sr nch L).length = 44 := by
  simp [wavHeader, asciiBytes, u32le, u16le]

theorem wavBytes_field28 (sr nch L : ℕ) (D : List ℕ) :
    ((wavHeader sr nch L ++ D).drop 28).take 4 = u32le (sr * nch * 2) := by
  have h : wavHeader sr nch L ++ D
      = (asciiBytes "RIFF" ++ u32le (36 + L * nch * 2) ++ asciiBytes "WAVE" ++
          asciiBytes "fmt " ++ u32le 16 ++ u16le 1 ++ u16le nch ++ u32le sr)
        ++ (u32le (sr * nch * 2) ++ (u16le (nch * 2) ++ (u16le 16 ++
            (asciiBytes "data" ++ (u32le (L * nch * 2) ++ D))))) := by
    simp [wavHeader, List.append_assoc]
  rw [h, List.drop_left' (by simp [asciiBytes, u32le, u16le]),
    List.take_left' (by simp [u32le])]

theorem wavBytes_field32 (sr nch L : ℕ) (D : List ℕ) :
    ((wavHeader sr nch L ++ D).drop 32).take 2 = u16le (nch * 2) := by
  have h : wavHeader sr nch L ++ D
      = (asciiBytes "RIFF" ++ u32le (36 + L * nch * 2) ++ asciiBytes "WAVE" ++
          asciiBytes "fmt " ++ u32le 16 ++ u16le 1 ++ u16le nch ++ u32le sr ++
          u32le (sr * nch * 2))
        ++ (u16le (nch * 2) ++ (u16le 16 ++
            (asciiBytes "data" ++ (u32le (L * nch * 2) ++ D)))) := by
    simp [wavHeader, List.append_assoc]
  rw [h, List.drop_left' (by simp [asciiBytes, u32le, u16le]),
    List.take_left' (by simp [u16le])]

theorem wavBytes_field34 (sr nch L : ℕ) (D : List ℕ) :
    ((wavHeader sr nch L ++ D).drop 34).take 2 = u16le 16 := by
  have h : wavHeader sr nch L ++ D
      = (asciiBytes "RIFF" ++ u32le (36 + L * nch * 2) ++ asciiBytes "WAVE" ++
          asciiBytes "fmt " ++ u32le 16 ++ u16le 1 ++ u16le nch ++ u32le sr ++
          u32le (sr * nch * 2) ++ u16le (nch * 2))
        ++ (u16le 16 ++ (asciiBytes "data" ++ (u32le (L * nch * 2) ++ D))) := by
    simp [wavHeader, List.append_assoc]
  rw [h, List.drop_left' (by simp [asciiBytes, u32le, u16le]),
    List.take_left' (by simp [u16le])]

theorem wavBytes_field40 (sr nch L : ℕ) (D : List ℕ) :
    ((wavHeader sr nch L ++ D).drop 40).take 4 = u32le (L * nch * 2) := by
  have h : wavHeader sr nch L ++ D
      = (asciiBytes "RIFF" ++ u32le (36 + L * nch * 2) ++ asciiBytes "WAVE" ++
          asciiBytes "fmt " ++ u32le 16 ++ u16le 1 ++ u16le nch ++ u32le sr ++
          u32le (sr * nch * 2) ++ u16le (nch * 2) ++ u16le 16 ++ asciiBytes "data")
        ++ (u32le (L * nch * 2) ++ D) := by
    simp [wavHeader, List.append_assoc]
  rw [h, List.drop_left' (by simp [asciiBytes, u32le, u16le]),
    List.take_left' (by simp [u32le])]

/-- C4: the encoded WAV payload is the 44-byte RIFF/WAVE header
followed by the interleaved 16-bit little-endian window samples; the
byte-rate, block-align, bits-per-sample and data-size header fields
hold `sampleRate*channels*2`, `channels*2`, 16 and
`(end-start)*channels*2` (a little-endian field read recovers the
value), and clamping keeps every written sample integer inside
`[-32767, 32767]`, so no write overflows a signed 16-bit slot. -/
theorem c4_wav_payload (a : DecodedAudio) (s e : ℕ) :
    encodeWav a s e
        = wavHeader a.sampleRate (numberOfChannels a) (e - s) ++ wavData a s (e - s)
    ∧ (wavHeader a.sampleRate (numberOfChannels a) (e - s)).length = 44
    ∧ (encodeWav a s e).length = 44 + (e - s) * numberOfChannels a * 2
    ∧ (encodeWav a s e).take 44 = wavHeader a.sampleRate (numberOfChannels a) (e - s)
    ∧ (encodeWav a s e).drop 44 = wavData a s (e - s)
    ∧ ((encodeWav a s e).drop 28).take 4 = u32le (a.sampleRate * numberOfChannels a * 2)
    ∧ ((encodeWav a s e).drop 32).take 2 = u16le (numberOfChannels a * 2)
    ∧ ((encodeWav a s e).drop 34).take 2 = u16le 16
    ∧ ((encodeWav a s e).drop 40).take 4 = u32le ((e - s) * numberOfChannels a * 2)
    ∧ (∀ n : ℕ, readU32 (u32le n) 0 = n % 4294967296)
    ∧ (∀ n : ℕ, readU16 (u16le n) 0 = n % 65536)
    ∧ (∀ q : ℚ, -32767 ≤ sampleInt16 q ∧ sampleInt16 q ≤ 32767) := by
  have h : encodeWav a s e
      = wavHeader a.sampleRate (numberOfChannels a) (e - s) ++ wavData a s (e - s) := rfl
  refine ⟨h, wavHeader_length _ _ _, ?_, ?_, ?_, ?_, ?_, ?_, ?_,
    readU32_u32le, readU16_u16le, sampleInt16_bounds⟩
  · rw [h, List.length_append, wavData_length, wavHeader_length]
  · rw [h]
    exact List.take_left' (wavHeader_length _ _ _)
  · rw [h]
    exact List.drop_left' (wavHeader_length _ _ _)
  · rw [h]
    exact wavBytes_field28 _ _ _ _
  · rw [h]
    exact wavBytes_field32 _ _ _ _
  · rw [h]
    exact wavBytes_field34 _ _ _ _
  · rw [h]
    exact wavBytes_field40 _ _ _ _

/-- C5 counterexample: for letters `[a, x]` with only `a` stored
(duration 600 ms) and speedParam 300, the chain inserts a pause after
clip `a` even though it is the last clip that plays (the condition is
on the letter index, not on the played clips), so completion fires at
900 ms where the claim predicts 600 ms. -/
theorem c5_gap_trailing_pause_counterexample :
    (gapRun ['a', 'x'] (fun c => if c = 'a' then some 600 else none) 300).time = 900
    ∧ specGapTotal ['a', 'x'] (fun c => if c = 'a' then some 600 else none) 300 = 600
    ∧ (900 : ℕ) ≠ 600 := by decide

/-- C5 (amended): clips play strictly sequentially (each play starts no
earlier than the previous play's end); each slot contributes its
duration plus a pause of speedParam exactly when its letter index is
not the last position of the filtered list (so a played clip followed
only by missing letters still gets a trailing pause), and a missing
letter contributes nothing; for `[a, b]` both present with
speedParam 300 the total is `duration(a) + 300 + duration(b)` with no
missing letters. -/
theorem c5_gap_sequencing_amended (letters : List Char) (lookup : Char → Option ℕ)
    (gap : ℕ) :
    (gapRun letters lookup gap).time
        = ((List.enumFrom 0 letters).map (gapContrib lookup gap letters.length)).sum
    ∧ (gapRun letters lookup gap).missing
        = (letters.filter fun l => (lookup l).isNone).map jsToUpper
    ∧ List.Chain' (fun p q => p.2.1 + p.2.2 ≤ q.2.1) (gapRun letters lookup gap).plays
    ∧ (∀ dA dB : ℕ,
        (gapRun ['a', 'b']
            (fun c => if c = 'a' then some dA else if c = 'b' then some dB else none)
            300).time = dA + 300 + dB
        ∧ (gapRun ['a', 'b']
            (fun c => if c = 'a' then some dA else if c = 'b' then some dB else none)
            300).missing = []
        ∧ (gapRun ['a', 'b']
            (fun c => if c = 'a' then some dA else if c = 'b' then some dB else none)
            300).plays = [('a', 0, dA), ('b', dA + 300, dB)]) := by
  refine ⟨gapRun_time letters lookup gap, gapRun_missing letters lookup gap,
    gapRunGo_plays_chain lookup gap letters.length letters 0 0, ?_⟩
  intro dA dB
  refine ⟨?_, ?_, ?_⟩ <;> simp [gapRun, gapRunGo]

/-- C1 counterexample: for letters `[a, x]` with only `a` stored and
speedParam 200 the completion timer delay is 1500 ms, not the claimed
`(2-1)*200 + 1500 = 1700` ms: the `return` for a missing letter skips
the `lastEndTime` update, so a missing slot contributes nothing to the
duration estimate. -/
theorem c1_offset_duration_counterexample :
    (offsetPlan ['a', 'x'] (fun c => if c = 'a' then some 0 else none) 200).lastEndTime = 1500
    ∧ offsetCompletionDelay
        (offsetPlan ['a', 'x'] (fun c => if c = 'a' then some 0 else none) 200) = 1500
    ∧ (offsetPlan ['a', 'x'] (fun c => if c = 'a' then some 0 else none) 200).scheduled
        = [(0, 0)]
    ∧ (offsetPlan ['a', 'x'] (fun c => if c = 'a' then some 0 else none) 200).missing = ['X']
    ∧ (1500 : ℕ) ≠ (2 - 1) * 200 + 1500 := by decide

/-- C1 (amended): a letter with a stored clip at position `i` is
scheduled at `i * speedParam`; the completion timer (which clears the
busy flag, re-enables the button and reports missing letters) is
scheduled with delay `lastEndTime`, the maximum of
`i * speedParam + 1500` over the stored-clip positions only (0 when
none) — so the claimed `(count-1)*speedParam + 1500` holds exactly
when every letter has a stored clip and the list is non-empty. -/
theorem c1_offset_timing_amended {β : Type} (letters : List Char)
    (lookup : Char → Option β) (delay : ℕ) :
    (offsetPlan letters lookup delay).scheduled
        = ((List.enumFrom 0 letters).filter fun e => (lookup e.2).isSome).map
            (fun e => (e.1, e.1 * delay))
    ∧ (offsetPlan letters lookup delay).missing
        = (letters.filter fun l => (lookup l).isNone).map jsToUpper
    ∧ (offsetPlan letters lookup delay).lastEndTime
        = ((List.enumFrom 0 letters).filter fun e => (lookup e.2).isSome).foldr
            (fun e m => max (e.1 * delay + 1500) m) 0
    ∧ offsetCompletionDelay (offsetPlan letters lookup delay)
        = (offsetPlan letters lookup delay).lastEndTime
    ∧ (∀ st : PlayerState,
        (offsetComplete st (offsetPlan letters lookup delay)).isPlayingWord = false
        ∧ (offsetComplete st (offsetPlan letters lookup delay)).playButtonDisabled = false)
    ∧ (letters ≠ [] → (∀ l ∈ letters, (lookup l).isSome) →
        (offsetPlan letters lookup delay).lastEndTime
          = (letters.length - 1) * delay + 1500) := by
  refine ⟨offsetPlan_scheduled letters lookup delay, offsetPlan_missing letters lookup delay,
    offsetPlan_lastEnd letters lookup delay, rfl, fun st => ⟨rfl, rfl⟩, ?_⟩
  intro hne hall
  have h := offsetPlanGo_lastEnd_allPresent delay lookup letters 0 hne hall
  simpa using h

/-- C1 witness: the all-present duration formula applied at a concrete
one-letter word. -/
theorem c1_offset_timing_amended_witness :
    (offsetPlan ['a'] (fun _ : Char => (some 0 : Option ℕ)) 200).lastEndTime
      = ((['a'] : List Char).length - 1) * 200 + 1500 :=
  (c1_offset_timing_amended ['a'] (fun _ : Char => (some 0 : Option ℕ)) 200).2.2.2.2.2
    (by decide) (fun _ _ => rfl)

/-- C7: under either policy, the deduplicated missing-letters report
contains exactly the uppercased letters with no stored clip, has no
duplicates, and is ordered by first occurrence in the word. -/
theorem c7_missing_report (letters : List Char) (lookupO : Char → Option Unit)
    (lookupG : Char → Option ℕ) (delay gap : ℕ)
    (hlower : ∀ l ∈ letters, 97 ≤ l.toNat ∧ l.toNat ≤ 122) :
    ReportCorrect letters (fun l => (lookupO l).isNone)
        (dedupFirst (offsetPlan letters lookupO delay).missing)
    ∧ ReportCorrect letters (fun l => (lookupG l).isNone)
        (dedupFirst (gapRun letters lookupG gap).missing) := by
  constructor
  · rw [offsetPlan_missing]
    exact reportCorrect_of_lower letters _ hlower
  · rw [gapRun_missing]
    exact reportCorrect_of_lower letters _ hlower

/-- C7 witness at a concrete word with a repeated missing letter. -/
theorem c7_missing_report_witness :
    (∀ l ∈ (['c', 'a', 'c'] : List Char), 97 ≤ l.toNat ∧ l.toNat ≤ 122)
    ∧ (ReportCorrect ['c', 'a', 'c']
          (fun l => ((if l = 'a' then some () else none : Option Unit)).isNone)
          (dedupFirst (offsetPlan ['c', 'a', 'c']
            (fun l => if l = 'a' then some () else none) 200).missing)
      ∧ ReportCorrect ['c', 'a', 'c']
          (fun l => ((if l = 'a' then some 700 else none : Option ℕ)).isNone)
          (dedupFirst (gapRun ['c', 'a', 'c']
            (fun l => if l = 'a' then some 700 else none) 300).missing)) :=
  ⟨by decide, c7_missing_report ['c', 'a', 'c'] _ _ 200 300 (by decide)⟩

/-- C10: when no letter of the word has a stored clip, nothing is
scheduled for playback, the completion timer is scheduled with delay 0
(so the busy flag is cleared and the button re-enabled immediately),
and the report still lists every distinct letter, uppercased. -/
theorem c10_offset_all_missing (letters : List Char) (lookup : Char → Option Unit)
    (delay : ℕ) (st : PlayerState) (hall : ∀ l ∈ letters, lookup l = none) :
    (offsetPlan letters lookup delay).scheduled = []
    ∧ (offsetPlan letters lookup delay).lastEndTime = 0
    ∧ offsetCompletionDelay (offsetPlan letters lookup delay) = 0
    ∧ (offsetComplete st (offsetPlan letters lookup delay)).isPlayingWord = false
    ∧ (offsetComplete st (offsetPlan letters lookup delay)).playButtonDisabled = false
    ∧ (offsetPlan letters lookup delay).missing = letters.map jsToUpper
    ∧ (∀ l ∈ letters, jsToUpper l ∈ dedupFirst (offsetPlan letters lookup delay).missing) := by
  have hfilter : ((List.enumFrom 0 letters).filter fun e => (lookup e.2).isSome)
      = ([] : List (ℕ × Char)) := by
    rw [List.filter_eq_nil_iff]
    intro e he
    have he2 : e.2 ∈ letters := by
      have hm := List.mem_map_of_mem Prod.snd he
      rw [List.enumFrom_map_snd] at hm
      exact hm
    rw [hall e.2 he2]
    simp
  have hmiss : (offsetPlan letters lookup delay).missing = letters.map jsToUpper := by
    rw [offsetPlan_missing]
    congr 1
    apply List.filter_eq_self.2
    intro l hl
    rw [hall l hl]
    rfl
  refine ⟨?_, ?_, ?_, rfl, rfl, hmiss, ?_⟩
  · rw [offsetPlan_scheduled, hfilter]
    rfl
  · rw [offsetPlan_lastEnd, hfilter]
    rfl
  · show (offsetPlan letters lookup delay).lastEndTime = 0
    rw [offsetPlan_lastEnd, hfilter]
    rfl
  · intro l hl
    rw [hmiss]
    exact (mem_dedupFirst _ _).2 (List.mem_map_of_mem _ hl)

/-- C10 witness at a concrete two-letter word with an empty store. -/
theorem c10_offset_all_missing_witness :
    (offsetPlan ['x', 'y'] (fun _ : Char => (none : Option Unit)) 200).scheduled = []
    ∧ (offsetPlan ['x', 'y'] (fun _ : Char => (none : Option Unit)) 200).lastEndTime = 0
    ∧ offsetCompletionDelay
        (offsetPlan ['x', 'y'] (fun _ : Char => (none : Option Unit)) 200) = 0
    ∧ (offsetComplete ⟨true, true, []⟩
        (offsetPlan ['x', 'y'] (fun _ : Char => (none : Option Unit)) 200)).isPlayingWord
        = false
    ∧ (offsetComplete ⟨true, true, []⟩
        (offsetPlan ['x', 'y'] (fun _ : Char => (none : Option Unit)) 200)).playButtonDisabled
        = false
    ∧ (offsetPlan ['x', 'y'] (fun _ : Char => (none : Option Unit)) 200).missing
        = (['x', 'y'] : List Char).map jsToUpper
    ∧ (∀ l ∈ (['x', 'y'] : List Char),
        jsToUpper l ∈ dedupFirst
          (offsetPlan ['x', 'y'] (fun _ : Char => (none : Option Unit)) 200).missing) :=
  c10_offset_all_missing ['x', 'y'] (fun _ => none) 200 ⟨true, true, []⟩ (fun _ _ => rfl)

end AlphabetReading
